import Mathlib

/-!
Verification of the climate-data ingestion and station-reconciliation
pipeline of the fit3164-ds21 repository.

This file gives a shallow embedding of the Python functions the claims
talk about and proves (or refutes) each claim over that embedding:

* `MatchUnmatched` — `scripts/utilities/match_unmatched_from_txt.py`
  (`normalize`, `resolve`, difflib-based fuzzy matching);
* `BomIngest` — `scripts/ingestion/bom_ingest.py`
  (`detect_file_encoding`, the per-row upsert of `ingest_file_data`);
* `IngestBomData` — `scripts/ingestion/ingest_bom_data.py`
  (`BOMDataIngester.ingest_dataframes`, a blind batch insert);
* `ImprovedIngestion` — `scripts/ingestion/improved_bom_ingestion.py`
  (`safe_float`, the skip-if-existing row loop);
* `BomData` — `scripts/ingestion/bom_data.py`
  (FTP retry loops with backoff);
* `BatchGeocode` — `scripts/geocoding/batch_geocode_bom_stations.py`
  (`geocode_station`, `process_batch`, rate limiting, envelope check);
* `WeatherDataGeo` — `weather_data/geocode_missing_stations.py`
  (the envelope-free `geocode_station`).

Machine floats of the source are modelled as rationals, dates as natural
numbers, and byte strings as lists of naturals.
-/

namespace MatchUnmatched

/-- Python `\s` whitespace class restricted to ASCII, as used by
`re.sub` patterns in `normalize` and by `str.strip`. -/
def isPyWs (c : Char) : Bool :=
  c = ' ' || c = '\t' || c = '\n' || c = '\x0d' || c = '\x0b' || c = '\x0c'

/-- ASCII lowercasing of one character, modelling Python `str.lower`
on the ASCII inputs handled by the pipeline. -/
def lowerChar (c : Char) : Char :=
  if 'A' ≤ c ∧ c ≤ 'Z' then Char.ofNat (c.toNat + 32) else c

/-- Character allowed through by the pattern `[^a-z0-9\s]` of
`normalize` (a lowercase letter, a digit, or whitespace). -/
def isKeptByPunct (c : Char) : Bool :=
  ('a' ≤ c && c ≤ 'z') || ('0' ≤ c && c ≤ '9') || isPyWs c

/-- Single pass implementing `re.sub(r"\(.*?\)", "", s)`.  When the
first argument is `some buf`, an as-yet-unclosed `(` has been seen and
`buf` holds (reversed) the characters read since it; a `)` discards the
whole span, and end of input restores it verbatim (an unmatched `(`
is not touched by the non-greedy pattern). -/
def rpGo : Option (List Char) → List Char → List Char
  | none, [] => []
  | some buf, [] => '(' :: buf.reverse
  | none, c :: rest => if c = '(' then rpGo (some []) rest else c :: rpGo none rest
  | some buf, c :: rest =>
    if c = ')' then rpGo none rest else rpGo (some (c :: buf)) rest

/-- Model of `re.sub(r"\(.*?\)", "", s)`: starting from each leftmost
unmatched `(`, everything up to and including the first subsequent `)`
is removed; a `(` with no later `)` is kept verbatim. -/
def removeParens (l : List Char) : List Char :=
  rpGo none l

/-- Model of `re.sub(r"[^a-z0-9\s]", " ", s)`: every character that is
not a lowercase letter, digit or whitespace becomes a space. -/
def punctToSpace (l : List Char) : List Char :=
  l.map (fun c => if isKeptByPunct c then c else ' ')

/-- Model of `re.sub(r"\s+", " ", s)`: each maximal run of whitespace
collapses to one space.  The boolean argument records whether the
previous character belonged to a whitespace run. -/
def collapseWs : Bool → List Char → List Char
  | _, [] => []
  | inRun, c :: rest =>
    if isPyWs c then
      if inRun then collapseWs true rest
      else ' ' :: collapseWs true rest
    else
      c :: collapseWs false rest

/-- Model of Python `str.strip()`: drop leading and trailing
whitespace. -/
def pyStrip (l : List Char) : List Char :=
  ((l.dropWhile isPyWs).reverse.dropWhile isPyWs).reverse

/-- Shallow embedding of `normalize` from
`scripts/utilities/match_unmatched_from_txt.py`: lowercase, remove
parenthesised spans, replace punctuation by spaces, collapse whitespace
runs, and strip. -/
def normalize (s : String) : String :=
  ⟨pyStrip (collapseWs false (punctToSpace (removeParens (s.data.map lowerChar))))⟩

/-- Length of the common run of equal characters at the heads of the
two lists (`difflib` matching-block building block). -/
def commonRun : List Char → List Char → Nat
  | a :: as, b :: bs => if a = b then commonRun as bs + 1 else 0
  | _, _ => 0

/-- Model of `difflib.SequenceMatcher.find_longest_match` over the whole
strings (no junk, as for the short station keys here): the longest common
block, returned as `(i, j, size)` with ties broken towards the smallest
start in `a`, then the smallest start in `b`, exactly as the difflib scan
order does. -/
def bestMatch (a b : List Char) : Nat × Nat × Nat :=
  (List.range a.length).foldl (fun acc i =>
    (List.range b.length).foldl (fun acc2 j =>
      let k := commonRun (a.drop i) (b.drop j)
      if acc2.2.2 < k then (i, j, k) else acc2) acc) (0, 0, 0)

/-- Fuelled recursion computing the total size of all difflib matching
blocks: take the longest common block and recurse on the material to its
left and to its right.  The fuel argument only serves Lean's
termination checker; `a.length + b.length + 1` is always enough because
every recursive call strictly shrinks the combined length. -/
def matchTotalF : Nat → List Char → List Char → Nat
  | 0, _, _ => 0
  | fuel + 1, a, b =>
    let m := bestMatch a b
    if m.2.2 = 0 then 0
    else
      matchTotalF fuel (a.take m.1) (b.take m.2.1) + m.2.2 +
        matchTotalF fuel (a.drop (m.1 + m.2.2)) (b.drop (m.2.1 + m.2.2))

/-- Total number of matching characters found by
`difflib.SequenceMatcher.get_matching_blocks`. -/
def matchTotal (a b : List Char) : Nat :=
  matchTotalF (a.length + b.length + 1) a b

/-- The `difflib` similarity `ratio()` as an exact rational, returned as
a numerator/denominator pair: `2*M / (len(a)+len(b))`, and `1` when both
strings are empty, as in `difflib._calculate_ratio`. -/
def ratioNumDen (a b : List Char) : Nat × Nat :=
  if a.length + b.length = 0 then (1, 1)
  else (2 * matchTotal a b, a.length + b.length)

/-- Whether `ratio(a, b) ≥ cn/cd`, compared exactly (the floating-point
comparison of the source agrees on these short strings because distinct
small rationals are never rounded to the same double). -/
def ratioGe (a b : List Char) (cn cd : Nat) : Bool :=
  cd * (ratioNumDen a b).1 ≥ cn * (ratioNumDen a b).2

/-- Python string `<` on code points, used by `heapq.nlargest` to break
score ties between `(score, name)` tuples. -/
def strLt : List Char → List Char → Bool
  | [], [] => false
  | [], _ :: _ => true
  | _ :: _, [] => false
  | a :: as, b :: bs => if a = b then strLt as bs else decide (a.toNat < b.toNat)

/-- Ordering used by `heapq.nlargest` in `difflib.get_close_matches`:
candidate `x` sorts before `y` when its ratio against `word` is larger,
with ratio ties broken by the larger string. -/
def scoreGt (word x y : List Char) : Bool :=
  let rx := ratioNumDen x word
  let ry := ratioNumDen y word
  if rx.1 * ry.2 = ry.1 * rx.2 then strLt y x
  else decide (ry.1 * rx.2 < rx.1 * ry.2)

/-- Insertion step of a descending insertion sort by `scoreGt`. -/
def insertByScore (word x : List Char) : List (List Char) → List (List Char)
  | [] => [x]
  | y :: ys => if scoreGt word x y then x :: y :: ys else y :: insertByScore word x ys

/-- Descending sort by `scoreGt`, modelling `heapq.nlargest` over the
`(score, name)` pairs (the registry keys are pairwise distinct, so the
order is a strict total order and any sort computes the same list). -/
def sortByScore (word : List Char) (l : List (List Char)) : List (List Char) :=
  l.foldr (insertByScore word) []

/-- Model of `difflib.get_close_matches(word, possibilities, n, cutoff)`
with the cutoff given as the exact rational `cn/cd`: keep the
possibilities whose ratio reaches the cutoff, sort them by descending
`(score, name)` and return the first `n`. -/
def getCloseMatches (word : List Char) (poss : List (List Char)) (n cn cd : Nat) :
    List (List Char) :=
  (sortByScore word (poss.filter (fun x => ratioGe x word cn cd))).take n

/-- One entry of the `bom_lookup` dictionary built by
`build_bom_lookup`: normalized key, display name, optional coordinates
(`lat`/`lon` are set together or both `None`). -/
structure Entry where
  key : String
  bomName : String
  coords : Option (Rat × Rat)
deriving DecidableEq, Repr

/-- How `resolve` classifies one unmatched row. -/
inductive ResolveOutcome
  | exact (bomName : String) (lat lon : Rat)
  | fuzzy (bomName : String) (lat lon : Rat)
  | remaining
deriving DecidableEq, Repr

/-- Dictionary lookup in the registry (keys are unique, as in the
Python `dict`). -/
def lookupReg (reg : List Entry) (k : String) : Option Entry :=
  reg.find? (fun e => e.key = k)

/-- The fuzzy branch of `resolve`: take the `difflib.get_close_matches`
candidates (at most 5) and pick the first whose registry entry has
coordinates; otherwise the row stays unresolved. -/
def resolveFuzzy (reg : List Entry) (cn cd : Nat) (norm : String) : ResolveOutcome :=
  let candidates := getCloseMatches norm.data (reg.map (fun e => e.key.data)) 5 cn cd
  match candidates.find? (fun c =>
      match lookupReg reg ⟨c⟩ with
      | some e => e.coords.isSome
      | none => false) with
  | some c =>
    match lookupReg reg ⟨c⟩ with
    | some e =>
      match e.coords with
      | some (lat, lon) => ResolveOutcome.fuzzy e.bomName lat lon
      | none => ResolveOutcome.remaining
    | none => ResolveOutcome.remaining
  | none => ResolveOutcome.remaining

/-- Shallow embedding of the per-row logic of `resolve` from
`scripts/utilities/match_unmatched_from_txt.py` (with no precomputed
`normalized` column): exact normalized-key match is accepted only when
the entry has coordinates, otherwise the fuzzy branch runs with cutoff
`cn/cd` (the script uses 0.75). -/
def resolveLabel (reg : List Entry) (cn cd : Nat) (label : String) : ResolveOutcome :=
  let norm := normalize label
  match lookupReg reg norm with
  | some e =>
    match e.coords with
    | some (lat, lon) => ResolveOutcome.exact e.bomName lat lon
    | none => resolveFuzzy reg cn cd norm
  | none => resolveFuzzy reg cn cd norm

end MatchUnmatched

namespace BomIngest

/-- One cleaned data row handed to the upsert loop of
`BOMDataIngestor.ingest_file_data`: an observation date and the nine
optional numeric measurement fields, in the fixed column order of the
`for col in [...]` list of the source (a `none` covers both an absent
column and a NaN cell, which `pd.notna` treats alike). -/
structure Row where
  date : Nat
  fields : List (Option Rat)
deriving DecidableEq, Repr

/-- One row of the `bom_weather_data` table. -/
structure Obs where
  stationId : Nat
  obsDate : Nat
  fields : List (Option Rat)
  fileSource : String
deriving DecidableEq, Repr

/-- One row of the `bom_weather_stations` table (only the columns the
claims mention). -/
structure Station where
  id : Nat
  name : String
  code : String
deriving DecidableEq, Repr

/-- The database state the claims are about: the station table and the
observation table. -/
structure DB where
  stations : List Station
  observations : List Obs
deriving DecidableEq, Repr

/-- Model of `BOMDataIngestor.get_or_create_station`: find the station
by `station_code`, else insert a new one with a fresh id. -/
def getOrCreateStation (stations : List Station) (name code : String) :
    List Station × Nat :=
  match stations.find? (fun s => s.code = code) with
  | some s => (stations, s.id)
  | none =>
    let newId := (stations.map Station.id).foldr max 0 + 1
    (stations ++ [⟨newId, name, code⟩], newId)

/-- Per-field update of the `if col in row and pd.notna(row[col])`
guard: a non-missing incoming value overwrites, a missing one keeps the
stored value. -/
def mergeField (old new : Option Rat) : Option Rat :=
  match new with
  | some v => some v
  | none => old

/-- The update branch of the upsert loop: overwrite exactly the
non-missing incoming fields and stamp the new `file_source`. -/
def mergeObs (o : Obs) (r : Row) (src : String) : Obs :=
  { o with fields := List.zipWith mergeField o.fields r.fields, fileSource := src }

/-- The insert branch of the upsert loop: a fresh observation carrying
the incoming values (missing ones stored as NULL). -/
def newObs (sid : Nat) (r : Row) (src : String) : Obs :=
  ⟨sid, r.date, r.fields, src⟩

/-- Update the first observation with the given `(station_id,
observation_date)` key, as `session.query(...).filter_by(...).first()`
does; `none` when no such row exists. -/
def upsertExisting (sid : Nat) (src : String) (r : Row) : List Obs → Option (List Obs)
  | [] => none
  | o :: os =>
    if o.stationId = sid ∧ o.obsDate = r.date then some (mergeObs o r src :: os)
    else
      match upsertExisting sid src r os with
      | some os2 => some (o :: os2)
      | none => none

/-- The row loop of `ingest_file_data`.  The session has
`autoflush=False`, so lookups see the rows already in the database
(`existing`, updated in place) but not the rows added during this run
(`pending`, flushed only by the final commit). -/
def processRows (sid : Nat) (src : String) :
    List Row → List Obs × List Obs → List Obs × List Obs
  | [], st => st
  | r :: rs, (existing, pending) =>
    match upsertExisting sid src r existing with
    | some existing2 => processRows sid src rs (existing2, pending)
    | none => processRows sid src rs (existing, pending ++ [newObs sid r src])

/-- Shallow embedding of `BOMDataIngestor.ingest_file_data` restricted
to the station and observation tables: an empty cleaned file commits
nothing, otherwise the station is fetched or created and every row is
upserted by `(station_id, observation_date)`, with the final commit
appending the pending inserts. -/
def ingestFileData (db : DB) (stationName stationCode fileName : String)
    (rows : List Row) : DB :=
  if rows.isEmpty then db
  else
    let st := getOrCreateStation db.stations stationName stationCode
    let pr := processRows st.2 fileName rows (db.observations, [])
    ⟨st.1, pr.1 ++ pr.2⟩

end BomIngest

namespace IngestBomData

/-- One row of the `bom_weather_data` table of
`scripts/ingestion/ingest_bom_data.py`, keyed by station name (that
script has no station table). -/
structure WData where
  stationName : String
  date : Nat
  fields : List (Option Rat)
  fileSource : String
deriving DecidableEq, Repr

/-- Shallow embedding of `BOMDataIngester.ingest_dataframes`: every
record of every cleaned dataframe is constructed and added with
`session.add_all` and committed in batches — there is no lookup for an
existing `(station, date)` row, so the table simply grows by all the
incoming records. -/
def ingestDataframes (table : List WData) (dfs : List (List WData)) : List WData :=
  dfs.foldl (fun t df => t ++ df) table

end IngestBomData

namespace ImprovedIngestion

/-- The per-row branch of `ImprovedBOMIngestor.process_weather_data`
for an already-stored `(station_id, observation_date)` key: the incoming
row is skipped entirely (`continue`), otherwise a fresh record is
inserted. -/
def processRow (sid : Nat) (src : String) (obs : List BomIngest.Obs)
    (r : BomIngest.Row) : List BomIngest.Obs :=
  if obs.any (fun o => o.stationId = sid ∧ o.obsDate = r.date) then obs
  else obs ++ [BomIngest.newObs sid r src]

end ImprovedIngestion

namespace BomData

/-- Loop body of `get_observation_location` from
`scripts/ingestion/bom_data.py`.  The oracle gives the outcome of each
connection attempt (`none` is a transient `TimeoutError` /
`ConnectionError` / `OSError` / `socket.timeout`).  `remaining` is the
number of loop iterations left (`max_retries - attempt`); the result is
`(locations, attempts made, backoff sleeps performed)`.  On the last
failed attempt the function returns `[]` instead of raising. -/
def goEnum (oracle : Nat → Option (List String)) :
    Nat → Nat → List String × Nat × List Nat
  | 0, attempt => ([], attempt, [])
  | remaining + 1, attempt =>
    match oracle attempt with
    | some locs => (locs, attempt + 1, [])
    | none =>
      if remaining = 0 then ([], attempt + 1, [])
      else
        let r := goEnum oracle remaining (attempt + 1)
        (r.1, r.2.1, ((attempt + 1) * 10) :: r.2.2)

/-- Shallow embedding of `get_observation_location`: up to
`max_retries = 5` attempts with `(attempt + 1) * 10` second waits
between consecutive attempts. -/
def getObservationLocation (oracle : Nat → Option (List String)) :
    List String × Nat × List Nat :=
  goEnum oracle 5 0

/-- Outcome of one FTP connection attempt in
`download_files_from_ftp`: a transient error (retried), a failure to
enter the remote directory (permanent, returns `False` at once), or a
successful connection that downloads some number of files. -/
inductive FtpOutcome
  | transient
  | cwdFail
  | connected (downloaded : Nat)
deriving DecidableEq, Repr

/-- Loop body of `download_files_from_ftp`, with `(attempt + 1) * 5`
second waits between consecutive transient failures and `False` after
the fifth; result is `(success, attempts made, sleeps performed)`. -/
def goDownload (oracle : Nat → FtpOutcome) :
    Nat → Nat → Bool × Nat × List Nat
  | 0, attempt => (false, attempt, [])
  | remaining + 1, attempt =>
    match oracle attempt with
    | .connected _ => (true, attempt + 1, [])
    | .cwdFail => (false, attempt + 1, [])
    | .transient =>
      if remaining = 0 then (false, attempt + 1, [])
      else
        let r := goDownload oracle remaining (attempt + 1)
        (r.1, r.2.1, ((attempt + 1) * 5) :: r.2.2)

/-- Shallow embedding of `download_files_from_ftp` (retry skeleton):
`max_retries = 5`. -/
def downloadFilesFromFtp (oracle : Nat → FtpOutcome) : Bool × Nat × List Nat :=
  goDownload oracle 5 0

/-- The per-state driver loop of `bom_data.py`: every location is
processed in turn, a failed location only increments the failure count
and the loop moves on to the next location. -/
def processLocations (oracles : List (Nat → FtpOutcome)) : Nat × Nat :=
  oracles.foldl
    (fun acc o =>
      if (downloadFilesFromFtp o).1 then (acc.1 + 1, acc.2) else (acc.1, acc.2 + 1))
    (0, 0)

end BomData

namespace BatchGeocode

/-- Outcome of one Nominatim query inside
`BOMStationGeocoder.geocode_station`: the request raised, returned a
non-200 status, returned an empty result list, or returned a first
result with the given coordinates. -/
inductive GeoOutcome
  | exc
  | badStatus
  | empty
  | found (lat lon : Rat)
deriving DecidableEq, Repr

/-- The Australia sanity envelope of the source:
`-45 <= lat <= -10 and 110 <= lon <= 155`. -/
def inEnvelope (lat lon : Rat) : Bool :=
  (-45 ≤ lat && lat ≤ -10) && (110 ≤ lon && lon ≤ 155)

/-- Externally observable events of a geocoding run: an HTTP request to
the provider, or an explicit `time.sleep` of the given duration. -/
inductive Ev
  | req
  | sleep (d : Rat)
deriving DecidableEq, Repr

/-- The query loop of `geocode_station` as a trace generator: each
query issues a request; an in-envelope result returns immediately; an
exception `continue`s with no sleep; every other outcome (bad status,
empty body, out-of-envelope coordinates) sleeps `delay` and tries the
next query. -/
def geocodeStationGo (delay : Rat) : List GeoOutcome → List Ev × Option (Rat × Rat)
  | [] => ([], none)
  | o :: rest =>
    match o with
    | .exc =>
      let r := geocodeStationGo delay rest
      (Ev.req :: r.1, r.2)
    | .found lat lon =>
      if inEnvelope lat lon then ([Ev.req], some (lat, lon))
      else
        let r := geocodeStationGo delay rest
        (Ev.req :: Ev.sleep delay :: r.1, r.2)
    | _ =>
      let r := geocodeStationGo delay rest
      (Ev.req :: Ev.sleep delay :: r.1, r.2)

/-- The coordinates returned by `geocode_station` (`(None, None)` when
every query fails). -/
def geocodeStation (delay : Rat) (outcomes : List GeoOutcome) : Option (Rat × Rat) :=
  (geocodeStationGo delay outcomes).2

/-- The station loop of `process_batch` (with `dry_run=False`): each
station runs `geocode_station`, and a sleep of `delay` separates
consecutive stations (none after the last). -/
def processBatchGo (delay : Rat) : List (List GeoOutcome) → List Ev
  | [] => []
  | st :: rest =>
    (geocodeStationGo delay st).1 ++
      (if rest.isEmpty then [] else [Ev.sleep delay]) ++ processBatchGo delay rest

/-- Shallow embedding of `process_batch` as an event trace: the station
loop followed by the trailing batch delay (slept whenever
`batch_delay > 0`). -/
def processBatchTrace (delay batchDelay : Rat) (stations : List (List GeoOutcome)) :
    List Ev :=
  processBatchGo delay stations ++ (if 0 < batchDelay then [Ev.sleep batchDelay] else [])

/-- Accumulates the sleep total since the previous request and emits it
at each subsequent request. -/
def gapsGo (acc : Rat) : List Ev → List Rat
  | [] => []
  | Ev.sleep d :: rest => gapsGo (acc + d) rest
  | Ev.req :: rest => acc :: gapsGo 0 rest

/-- The list of total sleep durations between each pair of consecutive
requests of a trace. -/
def gaps : List Ev → List Rat
  | [] => []
  | Ev.sleep _ :: rest => gaps rest
  | Ev.req :: rest => gapsGo 0 rest

/-- Total time explicitly slept in a trace. -/
def totalSleep : List Ev → Rat
  | [] => 0
  | Ev.sleep d :: rest => d + totalSleep rest
  | Ev.req :: rest => totalSleep rest

/-- Number of provider requests issued in a trace. -/
def reqCount : List Ev → Nat
  | [] => 0
  | Ev.sleep _ :: rest => reqCount rest
  | Ev.req :: rest => reqCount rest + 1

end BatchGeocode

namespace WeatherDataGeo

/-- Shallow embedding of `geocode_station` from
`weather_data/geocode_missing_stations.py`: a single query; any
exception (including an HTTP error status via `raise_for_status`) or an
empty body yields `(None, None)`, and a first result is returned as-is,
with no check on the coordinates. -/
def geocodeStation (outcome : BatchGeocode.GeoOutcome) : Option (Rat × Rat) :=
  match outcome with
  | .found lat lon => some (lat, lon)
  | _ => none

end WeatherDataGeo

namespace BomIngest

/-- Whether a byte sequence is accepted by an incremental strict UTF-8
decode of the probe: complete characters must be well-formed (the usual
lead/continuation ranges, excluding overlong forms and surrogates, as
CPython enforces), and a character truncated by the end of the probe is
not an error. -/
def utf8Ok : List Nat → Bool
  | [] => true
  | b :: rest =>
    if b < 128 then utf8Ok rest
    else if 194 ≤ b && b ≤ 223 then
      match rest with
      | [] => true
      | c1 :: r1 => if 128 ≤ c1 && c1 ≤ 191 then utf8Ok r1 else false
    else if 224 ≤ b && b ≤ 239 then
      match rest with
      | [] => true
      | c1 :: r1 =>
        if (if b = 224 then 160 else 128) ≤ c1 &&
            c1 ≤ (if b = 237 then 159 else 191) then
          match r1 with
          | [] => true
          | c2 :: r2 => if 128 ≤ c2 && c2 ≤ 191 then utf8Ok r2 else false
        else false
    else if 240 ≤ b && b ≤ 244 then
      match rest with
      | [] => true
      | c1 :: r1 =>
        if (if b = 240 then 144 else 128) ≤ c1 &&
            c1 ≤ (if b = 244 then 143 else 191) then
          match r1 with
          | [] => true
          | c2 :: r2 =>
            if 128 ≤ c2 && c2 ≤ 191 then
              match r2 with
              | [] => true
              | c3 :: r3 => if 128 ≤ c3 && c3 ≤ 191 then utf8Ok r3 else false
            else false
        else false
    else false

/-- The `latin-1` and `iso-8859-1` codecs decode every byte. -/
def latin1Ok (_ : List Nat) : Bool :=
  true

/-- The `cp1252` / `windows-1252` codec rejects exactly the five
unassigned bytes 0x81, 0x8D, 0x8F, 0x90, 0x9D. -/
def cp1252Ok (l : List Nat) : Bool :=
  l.all (fun b => b ≠ 129 && b ≠ 141 && b ≠ 143 && b ≠ 144 && b ≠ 157)

/-- The ordered candidate list of `detect_file_encoding`:
`['utf-8', 'latin-1', 'cp1252', 'iso-8859-1', 'windows-1252']`, each
paired with its decodability predicate. -/
def encodingCandidates : List (String × (List Nat → Bool)) :=
  [("utf-8", utf8Ok), ("latin-1", latin1Ok), ("cp1252", cp1252Ok),
    ("iso-8859-1", latin1Ok), ("windows-1252", cp1252Ok)]

/-- Shallow embedding of `detect_file_encoding` from
`scripts/ingestion/bom_ingest.py` (and its copy in
`ingest_bom_data.py`): try each candidate on the first 1 KB of the
file and return the first that decodes it; fall back to `utf-8` when
none succeeds. -/
def detectFileEncoding (bytes : List Nat) : String :=
  match encodingCandidates.find? (fun e => e.2 (bytes.take 1024)) with
  | some e => e.1
  | none => "utf-8"

end BomIngest

namespace ImprovedIngestion

/-- A Python float value as stored in a pandas cell: NaN, a signed
infinity, or a finite value (modelled exactly as a rational). -/
inductive PyFloat
  | nan
  | inf (neg : Bool)
  | val (q : Rat)
deriving DecidableEq, Repr

/-- The values `safe_float` can receive from `row.get(...)`: Python
`None`, a float, or a string cell. -/
inductive PyVal
  | vNone
  | vFloat (f : PyFloat)
  | vStr (s : String)
deriving DecidableEq, Repr

/-- Python errors that `float(value)` can raise on these value types. -/
inductive PyErr
  | valueError
  | typeError
deriving DecidableEq, Repr

/-- Model of `pd.isna`: true for `None` and for float NaN. -/
def isna : PyVal → Bool
  | .vNone => true
  | .vFloat .nan => true
  | _ => false

/-- ASCII digit test. -/
def isAsciiDigit (c : Char) : Bool :=
  '0' ≤ c && c ≤ '9'

/-- PEP 515 rule enforced by `float(str)`: every underscore must sit
between two digits.  The first argument is the previous character. -/
def usOk (prev : Option Char) : List Char → Bool
  | [] => true
  | c :: rest =>
    if c = '_' then
      (match prev with
        | some p => isAsciiDigit p
        | none => false) &&
        (match rest with
          | d :: _ => isAsciiDigit d
          | [] => false) &&
        usOk (some c) rest
    else usOk (some c) rest

/-- Optional sign at the head of a float literal; returns
`(negative, rest)`. -/
def parseSign : List Char → Bool × List Char
  | '+' :: rest => (false, rest)
  | '-' :: rest => (true, rest)
  | l => (false, l)

/-- Numeric value of a digit string. -/
def digitsVal (l : List Char) : Nat :=
  l.foldl (fun acc c => acc * 10 + (c.toNat - 48)) 0

/-- Optional exponent part of a float literal applied to a parsed
mantissa; the whole rest of the input must be consumed. -/
def parseExp (mant : Rat) : List Char → Option Rat
  | [] => some mant
  | e :: rest =>
    if e = 'e' ∨ e = 'E' then
      let sr := parseSign rest
      let dr := sr.2.span isAsciiDigit
      if dr.1.isEmpty ∨ ¬ dr.2.isEmpty then none
      else
        let ex := digitsVal dr.1
        some (if sr.1 then mant / (10 : Rat) ^ ex else mant * (10 : Rat) ^ ex)
    else none

/-- Unsigned decimal part of a float literal: digits with an optional
point and optional exponent, requiring at least one mantissa digit. -/
def parseNumeric (l : List Char) : Option Rat :=
  let ir := l.span isAsciiDigit
  match ir.2 with
  | '.' :: r2 =>
    let fr := r2.span isAsciiDigit
    if ir.1.isEmpty && fr.1.isEmpty then none
    else
      parseExp ((digitsVal ir.1 : Rat) + (digitsVal fr.1 : Rat) / (10 : Rat) ^ fr.1.length)
        fr.2
  | _ =>
    if ir.1.isEmpty then none
    else parseExp (digitsVal ir.1 : Rat) ir.2

/-- Model of Python `float(str)`: strip whitespace, enforce the
underscore placement rule and drop underscores, take an optional sign,
then either a case-insensitive `inf` / `infinity` / `nan` word or a
decimal literal.  `none` models a `ValueError`. -/
def parseFloat (s : String) : Option PyFloat :=
  let stripped := MatchUnmatched.pyStrip s.data
  if ¬ usOk none stripped then none
  else
    let cleaned := stripped.filter (fun c => c ≠ '_')
    let sb := parseSign cleaned
    let lower := sb.2.map MatchUnmatched.lowerChar
    if lower = "inf".data ∨ lower = "infinity".data then some (.inf sb.1)
    else if lower = "nan".data then some .nan
    else
      match parseNumeric sb.2 with
      | some q => some (.val (if sb.1 then -q else q))
      | none => none

/-- Model of the builtin `float(value)` call on the value types
`safe_float` receives: `TypeError` on `None`, identity on floats, and
string parsing with `ValueError` on failure. -/
def pythonFloat : PyVal → Except PyErr PyFloat
  | .vNone => .error .typeError
  | .vFloat f => .ok f
  | .vStr s =>
    match parseFloat s with
    | some f => .ok f
    | none => .error .valueError

/-- Shallow embedding of `ImprovedBOMIngestor.safe_float`: missing
values (`pd.isna`, the empty string, a single space) become `None`,
then `float(value)` is tried with `ValueError` and `TypeError` mapped
to `None`. -/
def safeFloat (v : PyVal) : Option PyFloat :=
  if isna v || v = .vStr "" || v = .vStr " " then none
  else
    match pythonFloat v with
    | .ok f => some f
    | .error .valueError => none
    | .error .typeError => none

/-- The same function with the raising behaviour made explicit: the
result of running the `try`/`except` body, where an uncaught error
would surface as `Except.error`.  The `except (ValueError, TypeError)`
clause of the source catches both constructors of `PyErr`, so no error
escapes. -/
def safeFloatRun (v : PyVal) : Except PyErr (Option PyFloat) :=
  if isna v || v = .vStr "" || v = .vStr " " then .ok none
  else
    match pythonFloat v with
    | .ok f => .ok (some f)
    | .error .valueError => .ok none
    | .error .typeError => .ok none

end ImprovedIngestion

namespace BomIngest

/-- The flushed view of one upsert: update the first matching row in
the single observation list, else append.  With at most one row per
date in a file this coincides with the source's split into committed
rows and unflushed pending inserts (proved below). -/
def applyRow (sid : Nat) (src : String) (L : List Obs) (r : Row) : List Obs :=
  match upsertExisting sid src r L with
  | some L2 => L2
  | none => L ++ [newObs sid r src]

end BomIngest

namespace BatchGeocode

/-- Total duration of the sleeps at the head of a trace, before its
first request. -/
def leadSleepSum : List Ev → Rat
  | Ev.sleep d :: rest => d + leadSleepSum rest
  | _ => 0

/-- A trace in which every request is either the last event or is
immediately followed by a sleep of at least `delay` — the shape the
batch geocoder produces when no request raises. -/
def reqSpaced (delay : Rat) : List Ev → Prop
  | [] => True
  | [Ev.req] => True
  | Ev.req :: Ev.sleep d :: rest => delay ≤ d ∧ reqSpaced delay (Ev.sleep d :: rest)
  | Ev.req :: Ev.req :: _ => False
  | Ev.sleep _ :: rest => reqSpaced delay rest

/-- Every sleep of the trace is nonnegative. -/
def sleepsNonneg (tr : List Ev) : Prop :=
  ∀ d : Rat, Ev.sleep d ∈ tr → 0 ≤ d

end BatchGeocode

set_option maxRecDepth 10000

namespace MatchUnmatched

theorem mem_punctToSpace {l : List Char} {c : Char} (h : c ∈ punctToSpace l) :
    isKeptByPunct c = true ∨ c = ' ' := by
  simp only [punctToSpace, List.mem_map] at h
  obtain ⟨d, _, hd⟩ := h
  by_cases hk : isKeptByPunct d = true
  · simp [hk] at hd
    subst hd
    exact Or.inl hk
  · simp [hk] at hd
    exact Or.inr hd.symm

theorem mem_collapseWs :
    ∀ (b : Bool) (l : List Char) (c : Char),
      c ∈ collapseWs b l → c = ' ' ∨ (c ∈ l ∧ isPyWs c = false) := by
  intro b l
  induction l generalizing b with
  | nil => intro c h; simp [collapseWs] at h
  | cons d rest ih =>
    intro c h
    by_cases hw : isPyWs d = true
    · cases b with
      | true =>
        simp only [collapseWs, hw, if_pos] at h
        rcases ih true c h with h1 | h2
        · exact Or.inl h1
        · exact Or.inr ⟨List.mem_cons_of_mem _ h2.1, h2.2⟩
      | false =>
        simp only [collapseWs, hw, if_pos] at h
        rcases List.mem_cons.1 h with h1 | h1
        · exact Or.inl h1
        · rcases ih true c h1 with h2 | h3
          · exact Or.inl h2
          · exact Or.inr ⟨List.mem_cons_of_mem _ h3.1, h3.2⟩
    · simp only [collapseWs, hw] at h
      simp only [Bool.false_eq_true, if_false] at h
      rcases List.mem_cons.1 h with h1 | h1
      · subst h1
        exact Or.inr ⟨List.mem_cons_self _ _, by simpa using hw⟩
      · rcases ih false c h1 with h2 | h3
        · exact Or.inl h2
        · exact Or.inr ⟨List.mem_cons_of_mem _ h3.1, h3.2⟩

theorem mem_pyStrip {l : List Char} {c : Char} (h : c ∈ pyStrip l) : c ∈ l := by
  simp only [pyStrip, List.mem_reverse] at h
  have h2 : c ∈ (l.dropWhile isPyWs).reverse := (List.dropWhile_sublist _).mem h
  rw [List.mem_reverse] at h2
  exact (List.dropWhile_sublist _).mem h2

end MatchUnmatched

/-- C4, counterexample: the source `normalize` removes no noise tokens
such as "airport", so the equality claimed in the spec fails on the
concrete pair of inputs it names. -/
theorem normalize_airport_mismatch :
    MatchUnmatched.normalize "Sydney Airport" ≠
      MatchUnmatched.normalize "SYDNEY (AIRPORT)" := by
  decide

/-- C4 (amended): `normalize` is pure and deterministic, lowercases,
strips parenthetical qualifiers, strips punctuation and collapses
whitespace — every output character is a lowercase letter, a digit or a
single space — but it removes no noise tokens, so
`normalize "Sydney Airport"` is `"sydney airport"` while
`normalize "SYDNEY (AIRPORT)"` is `"sydney"`. -/
theorem normalize_characterisation :
    MatchUnmatched.normalize "Sydney Airport" = "sydney airport" ∧
    MatchUnmatched.normalize "SYDNEY (AIRPORT)" = "sydney" ∧
    ∀ (s : String), ∀ c ∈ (MatchUnmatched.normalize s).data,
      ('a' ≤ c ∧ c ≤ 'z') ∨ ('0' ≤ c ∧ c ≤ '9') ∨ c = ' ' := by
  refine ⟨by decide, by decide, ?_⟩
  intro s c hc
  have h1 : c ∈ MatchUnmatched.collapseWs false
      (MatchUnmatched.punctToSpace
        (MatchUnmatched.removeParens (s.data.map MatchUnmatched.lowerChar))) :=
    MatchUnmatched.mem_pyStrip hc
  rcases MatchUnmatched.mem_collapseWs _ _ _ h1 with h2 | ⟨h3, h4⟩
  · exact Or.inr (Or.inr h2)
  · rcases MatchUnmatched.mem_punctToSpace h3 with h5 | h6
    · simp only [MatchUnmatched.isKeptByPunct, h4, Bool.or_false, Bool.or_eq_true,
        Bool.and_eq_true, decide_eq_true_eq] at h5
      rcases h5 with h7 | h7
      · exact Or.inl h7
      · exact Or.inr (Or.inl h7)
    · exact Or.inr (Or.inr h6)

/-- C4, witness for the amended theorem at the concrete input
"Sydney Airport" and its first output character. -/
theorem normalize_characterisation_witness :
    ('a' ≤ 's' ∧ 's' ≤ 'z') ∨ ('0' ≤ 's' ∧ 's' ≤ '9') ∨ 's' = ' ' :=
  normalize_characterisation.2.2 "Sydney Airport" 's' (by decide)

namespace BomData

theorem foldl_counts :
    ∀ (oracles : List (Nat → FtpOutcome)) (a b : Nat),
      ((oracles.foldl
          (fun acc o =>
            if (downloadFilesFromFtp o).1 then (acc.1 + 1, acc.2)
            else (acc.1, acc.2 + 1))
          (a, b)).1 +
        (oracles.foldl
          (fun acc o =>
            if (downloadFilesFromFtp o).1 then (acc.1 + 1, acc.2)
            else (acc.1, acc.2 + 1))
          (a, b)).2) = a + b + oracles.length := by
  intro oracles
  induction oracles with
  | nil => intro a b; simp
  | cons o rest ih =>
    intro a b
    by_cases h : (downloadFilesFromFtp o).1 = true
    · simp only [List.foldl_cons, h, if_pos, List.length_cons]
      rw [ih]
      omega
    · simp only [List.foldl_cons, Bool.not_eq_true] at h
      simp only [List.foldl_cons, h, Bool.false_eq_true, if_false, List.length_cons]
      rw [ih]
      omega

end BomData

/-- C6: when every attempt fails transiently, `get_observation_location`
makes exactly 5 attempts with the increasing backoff waits 10, 20, 30,
40 and returns the failure value `[]`; `download_files_from_ftp`
likewise makes exactly 5 attempts with waits 5, 10, 15, 20 and returns
`False`; and the driver loop counts every location as either a success
or a failure and continues, so no location aborts the run. -/
theorem retry_bound_graceful :
    (∀ oracle : Nat → Option (List String), (∀ i, oracle i = none) →
        BomData.getObservationLocation oracle = ([], 5, [10, 20, 30, 40])) ∧
    (∀ oracle : Nat → BomData.FtpOutcome,
        (∀ i, oracle i = BomData.FtpOutcome.transient) →
        BomData.downloadFilesFromFtp oracle = (false, 5, [5, 10, 15, 20])) ∧
    (∀ oracles : List (Nat → BomData.FtpOutcome),
        (BomData.processLocations oracles).1 + (BomData.processLocations oracles).2 =
          oracles.length) := by
  refine ⟨?_, ?_, ?_⟩
  · intro oracle h
    simp [BomData.getObservationLocation, BomData.goEnum, h]
  · intro oracle h
    simp [BomData.downloadFilesFromFtp, BomData.goDownload, h]
  · intro oracles
    have := BomData.foldl_counts oracles 0 0
    simpa [BomData.processLocations] using this

/-- C6, witness: the theorem applied to the concrete always-failing
oracles and a two-location run in which both locations fail. -/
theorem retry_bound_graceful_witness :
    BomData.getObservationLocation (fun _ => none) = ([], 5, [10, 20, 30, 40]) ∧
    BomData.downloadFilesFromFtp (fun _ => BomData.FtpOutcome.transient) =
      (false, 5, [5, 10, 15, 20]) ∧
    (BomData.processLocations [fun _ => BomData.FtpOutcome.transient,
        fun _ => BomData.FtpOutcome.transient]).1 +
      (BomData.processLocations [fun _ => BomData.FtpOutcome.transient,
        fun _ => BomData.FtpOutcome.transient]).2 = 2 :=
  ⟨retry_bound_graceful.1 _ (fun _ => rfl),
    retry_bound_graceful.2.1 _ (fun _ => rfl),
    retry_bound_graceful.2.2 _⟩

namespace BatchGeocode

theorem geocodeStation_some_envelope :
    ∀ (delay : Rat) (outcomes : List GeoOutcome) (lat lon : Rat),
      geocodeStation delay outcomes = some (lat, lon) → inEnvelope lat lon = true := by
  intro delay outcomes
  induction outcomes with
  | nil => intro lat lon h; simp [geocodeStation, geocodeStationGo] at h
  | cons o rest ih =>
    intro lat lon h
    cases o with
    | exc =>
      simp only [geocodeStation, geocodeStationGo] at h
      exact ih lat lon h
    | badStatus =>
      simp only [geocodeStation, geocodeStationGo] at h
      exact ih lat lon h
    | empty =>
      simp only [geocodeStation, geocodeStationGo] at h
      exact ih lat lon h
    | found l n =>
      by_cases he : inEnvelope l n = true
      · simp only [geocodeStation, geocodeStationGo, he, if_pos] at h
        obtain ⟨h1, h2⟩ := Prod.mk.injEq .. ▸ Option.some.injEq .. ▸ h
        rw [← h1, ← h2]
        exact he
      · simp only [Bool.not_eq_true] at he
        simp only [geocodeStation, geocodeStationGo, he, Bool.false_eq_true, if_false] at h
        exact ih lat lon h

end BatchGeocode

/-- C8 (amended): the batch geocoder accepts coordinates only inside
the envelope (every `some` result of `geocode_station` satisfies the
latitude/longitude bounds), and an out-of-envelope response makes it
sleep and try the next query; the single-query geocoder of
`weather_data/geocode_missing_stations.py`, however, performs no
envelope check at all. -/
theorem batch_geocode_envelope :
    (∀ (delay : Rat) (outcomes : List BatchGeocode.GeoOutcome) (lat lon : Rat),
        BatchGeocode.geocodeStation delay outcomes = some (lat, lon) →
        BatchGeocode.inEnvelope lat lon = true) ∧
    (∀ (delay lat lon : Rat) (rest : List BatchGeocode.GeoOutcome),
        BatchGeocode.inEnvelope lat lon = false →
        BatchGeocode.geocodeStationGo delay
            (BatchGeocode.GeoOutcome.found lat lon :: rest) =
          (BatchGeocode.Ev.req :: BatchGeocode.Ev.sleep delay ::
              (BatchGeocode.geocodeStationGo delay rest).1,
            (BatchGeocode.geocodeStationGo delay rest).2)) := by
  constructor
  · exact BatchGeocode.geocodeStation_some_envelope
  · intro delay lat lon rest h
    simp [BatchGeocode.geocodeStationGo, h]

/-- C8, witness: a lookup whose first response is Paris (48, 2) and
whose second is Sydney-like (-33, 151) returns the second, and the
theorem certifies the returned pair is inside the envelope. -/
theorem batch_geocode_envelope_witness :
    BatchGeocode.inEnvelope (-33) 151 = true :=
  batch_geocode_envelope.1 2
    [BatchGeocode.GeoOutcome.found 48 2, BatchGeocode.GeoOutcome.found (-33) 151]
    (-33) 151 (by decide)

/-- C8, counterexample: the `weather_data` geocoder returns the first
response unchanged even when it is far outside the Australian envelope
(here Paris at latitude 48, longitude 2), so "a lookup never returns
out-of-envelope coordinates" is false for it. -/
theorem weather_data_geocode_unchecked :
    WeatherDataGeo.geocodeStation (BatchGeocode.GeoOutcome.found 48 2) = some (48, 2) ∧
    BatchGeocode.inEnvelope 48 2 = false := by
  decide

/-- C9: `detect_file_encoding` tries the fixed ordered candidate list
on the first 1 KB of the file and the first candidate that decodes the
probe is the one returned (and then used to read the file); since
`latin-1` decodes every byte sequence, some candidate always succeeds,
so the result is `utf-8` exactly when the probe is valid UTF-8 and
`latin-1` otherwise, and the no-candidate lossy-replacement fallback is
never reached (the run never aborts on encoding). -/
theorem detect_encoding_first_success :
    ∀ bytes : List Nat,
      ((BomIngest.detectFileEncoding bytes = "utf-8" ∧
          BomIngest.utf8Ok (bytes.take 1024) = true) ∨
        (BomIngest.detectFileEncoding bytes = "latin-1" ∧
          BomIngest.utf8Ok (bytes.take 1024) = false ∧
          BomIngest.latin1Ok (bytes.take 1024) = true)) ∧
      ∃ e ∈ BomIngest.encodingCandidates, e.2 (bytes.take 1024) = true := by
  intro bytes
  constructor
  · by_cases hu : BomIngest.utf8Ok (bytes.take 1024) = true
    · left
      refine ⟨?_, hu⟩
      simp [BomIngest.detectFileEncoding, BomIngest.encodingCandidates, List.find?, hu]
    · right
      simp only [Bool.not_eq_true] at hu
      refine ⟨?_, hu, rfl⟩
      simp [BomIngest.detectFileEncoding, BomIngest.encodingCandidates, List.find?, hu,
        BomIngest.latin1Ok]
  · exact ⟨("latin-1", BomIngest.latin1Ok), by simp [BomIngest.encodingCandidates], rfl⟩

namespace ImprovedIngestion

theorem pyStrip_all_ws {l : List Char} (h : l.all MatchUnmatched.isPyWs = true) :
    MatchUnmatched.pyStrip l = [] := by
  have h1 : l.dropWhile MatchUnmatched.isPyWs = [] := by
    rw [List.dropWhile_eq_nil_iff]
    intro x hx
    exact List.all_eq_true.1 h x hx
  simp [MatchUnmatched.pyStrip, h1]

end ImprovedIngestion

/-- C10: `safe_float` never lets an error escape (the explicit-raise
model always returns `ok`), on a string cell it returns exactly what
`float(...)` parsing yields (with failures as `None`), a finite or
infinite float passes through, NaN and `None` become `None`, and a
whitespace-only string never parses. -/
theorem safe_float_total_characterisation :
    (∀ v, ImprovedIngestion.safeFloatRun v =
        Except.ok (ImprovedIngestion.safeFloat v)) ∧
    (∀ s, ImprovedIngestion.safeFloat (ImprovedIngestion.PyVal.vStr s) =
        ImprovedIngestion.parseFloat s) ∧
    (∀ q, ImprovedIngestion.safeFloat
        (ImprovedIngestion.PyVal.vFloat (ImprovedIngestion.PyFloat.val q)) =
        some (ImprovedIngestion.PyFloat.val q)) ∧
    (∀ b, ImprovedIngestion.safeFloat
        (ImprovedIngestion.PyVal.vFloat (ImprovedIngestion.PyFloat.inf b)) =
        some (ImprovedIngestion.PyFloat.inf b)) ∧
    ImprovedIngestion.safeFloat
        (ImprovedIngestion.PyVal.vFloat ImprovedIngestion.PyFloat.nan) = none ∧
    ImprovedIngestion.safeFloat ImprovedIngestion.PyVal.vNone = none ∧
    (∀ s : String, s.data.all MatchUnmatched.isPyWs = true →
        ImprovedIngestion.parseFloat s = none) := by
  refine ⟨?_, ?_, fun q => rfl, fun b => rfl, rfl, rfl, ?_⟩
  · intro v
    by_cases hc : (ImprovedIngestion.isna v || v = .vStr "" || v = .vStr " ") = true
    · simp [ImprovedIngestion.safeFloatRun, ImprovedIngestion.safeFloat, hc]
    · simp only [Bool.not_eq_true] at hc
      rcases hp : ImprovedIngestion.pythonFloat v with err | f
      · cases err <;>
          simp [ImprovedIngestion.safeFloatRun, ImprovedIngestion.safeFloat, hc, hp]
      · simp [ImprovedIngestion.safeFloatRun, ImprovedIngestion.safeFloat, hc, hp]
  · intro s
    by_cases h1 : s = ""
    · subst h1; decide
    · by_cases h2 : s = " "
      · subst h2; decide
      · rcases hp : ImprovedIngestion.parseFloat s with _ | f <;>
          simp [ImprovedIngestion.safeFloat, ImprovedIngestion.isna, h1, h2,
            ImprovedIngestion.pythonFloat, hp]
  · intro s h
    have hs : MatchUnmatched.pyStrip s.data = [] :=
      ImprovedIngestion.pyStrip_all_ws h
    simp only [ImprovedIngestion.parseFloat, hs, ImprovedIngestion.usOk,
      ImprovedIngestion.parseSign, ImprovedIngestion.parseNumeric, List.span]
    decide

/-- C10, witness: the characterisation applied to a two-space string
(whitespace-only but not caught by the literal `== ' '` check). -/
theorem safe_float_total_characterisation_witness :
    ImprovedIngestion.parseFloat "  " = none :=
  safe_float_total_characterisation.2.2.2.2.2.2 "  " (by decide)

namespace BomIngest

theorem zipMerge_get_missing :
    ∀ (xs ys : List (Option Rat)) (k : Nat), ys.get? k = some none →
      (List.zipWith mergeField xs ys).get? k = xs.get? k := by
  intro xs
  induction xs with
  | nil => intro ys k h; simp
  | cons x xs ih =>
    intro ys k h
    cases ys with
    | nil => simp at h
    | cons y ys =>
      cases k with
      | zero =>
        simp only [List.get?_cons_zero, Option.some.injEq] at h
        subst h
        simp [mergeField]
      | succ n =>
        simp only [List.get?_cons_succ] at h ⊢
        simp only [List.zipWith_cons_cons, List.get?_cons_succ]
        exact ih ys n h

theorem zipMerge_get_present :
    ∀ (xs ys : List (Option Rat)) (k : Nat) (v : Rat),
      ys.get? k = some (some v) → k < xs.length →
      (List.zipWith mergeField xs ys).get? k = some (some v) := by
  intro xs
  induction xs with
  | nil => intro ys k v h hk; simp at hk
  | cons x xs ih =>
    intro ys k v h hk
    cases ys with
    | nil => simp at h
    | cons y ys =>
      cases k with
      | zero =>
        simp only [List.get?_cons_zero, Option.some.injEq] at h
        subst h
        simp [mergeField]
      | succ n =>
        simp only [List.get?_cons_succ] at h
        simp only [List.zipWith_cons_cons, List.get?_cons_succ]
        simp only [List.length_cons, Nat.succ_lt_succ_iff] at hk
        exact ih ys n v h hk

end BomIngest

/-- C3: when the upsert loop updates an existing observation, a field
that is missing in the incoming row keeps its previously stored value,
a field that is present overwrites it, and the
`improved_bom_ingestion.py` variant skips an already-stored
`(station, date)` row entirely, so neither path ever clears a stored
value with a missing incoming field. -/
theorem merge_never_erases :
    (∀ (o : BomIngest.Obs) (r : BomIngest.Row) (src : String) (k : Nat),
        r.fields.get? k = some none →
        (BomIngest.mergeObs o r src).fields.get? k = o.fields.get? k) ∧
    (∀ (o : BomIngest.Obs) (r : BomIngest.Row) (src : String) (k : Nat) (v : Rat),
        r.fields.get? k = some (some v) → k < o.fields.length →
        (BomIngest.mergeObs o r src).fields.get? k = some (some v)) ∧
    (∀ (sid : Nat) (src : String) (obs : List BomIngest.Obs) (r : BomIngest.Row),
        (∃ o ∈ obs, o.stationId = sid ∧ o.obsDate = r.date) →
        ImprovedIngestion.processRow sid src obs r = obs) := by
  refine ⟨?_, ?_, ?_⟩
  · intro o r src k h
    exact BomIngest.zipMerge_get_missing o.fields r.fields k h
  · intro o r src k v h hk
    exact BomIngest.zipMerge_get_present o.fields r.fields k v h hk
  · intro sid src obs r h
    obtain ⟨o, ho, hk⟩ := h
    have ha : obs.any (fun o => decide (o.stationId = sid ∧ o.obsDate = r.date)) = true :=
      List.any_eq_true.2 ⟨o, ho, by simp [hk.1, hk.2]⟩
    simp only [ImprovedIngestion.processRow]
    rw [if_pos]
    simpa using ha

/-- C3, witness: an observation storing temp-max 30 merged with an
incoming row whose first field is missing keeps the stored 30, and the
skip path leaves the table unchanged. -/
theorem merge_never_erases_witness :
    (BomIngest.mergeObs ⟨1, 1, [some 30, none], "f"⟩ ⟨1, [none, some 5]⟩ "g").fields.get? 0 =
      (BomIngest.Obs.mk 1 1 [some 30, none] "f").fields.get? 0 ∧
    ImprovedIngestion.processRow 1 "g" [⟨1, 1, [some 30, none], "f"⟩] ⟨1, [none, some 5]⟩ =
      [⟨1, 1, [some 30, none], "f"⟩] :=
  ⟨merge_never_erases.1 ⟨1, 1, [some 30, none], "f"⟩ ⟨1, [none, some 5]⟩ "g" 0 (by decide),
    merge_never_erases.2.2 1 "g" [⟨1, 1, [some 30, none], "f"⟩] ⟨1, [none, some 5]⟩
      ⟨⟨1, 1, [some 30, none], "f"⟩, by simp, rfl, rfl⟩⟩

namespace BomIngest

theorem mergeField_idem (a b : Option Rat) :
    mergeField (mergeField a b) b = mergeField a b := by
  cases b <;> rfl

theorem mergeField_self (a : Option Rat) : mergeField a a = a := by
  cases a <;> rfl

theorem zipWith_mergeField_idem :
    ∀ xs ys : List (Option Rat),
      List.zipWith mergeField (List.zipWith mergeField xs ys) ys =
        List.zipWith mergeField xs ys := by
  intro xs
  induction xs with
  | nil => intro ys; simp
  | cons x xs ih =>
    intro ys
    cases ys with
    | nil => simp
    | cons y ys => simp [mergeField_idem, ih]

theorem zipWith_mergeField_self :
    ∀ xs : List (Option Rat), List.zipWith mergeField xs xs = xs := by
  intro xs
  induction xs with
  | nil => simp
  | cons x xs ih => simp [mergeField_self, ih]

theorem mergeObs_idem (o : Obs) (r : Row) (src : String) :
    mergeObs (mergeObs o r src) r src = mergeObs o r src := by
  simp [mergeObs, zipWith_mergeField_idem]

theorem mergeObs_newObs (sid : Nat) (r : Row) (src : String) :
    mergeObs (newObs sid r src) r src = newObs sid r src := by
  simp [mergeObs, newObs, mergeField_self]

theorem applyRow_cons_match {sid : Nat} {src : String} {o : Obs} {r : Row}
    (L : List Obs) (h : o.stationId = sid ∧ o.obsDate = r.date) :
    applyRow sid src (o :: L) r = mergeObs o r src :: L := by
  simp [applyRow, upsertExisting, h]

theorem applyRow_cons_nomatch {sid : Nat} {src : String} {o : Obs} {r : Row}
    (L : List Obs) (h : ¬(o.stationId = sid ∧ o.obsDate = r.date)) :
    applyRow sid src (o :: L) r = o :: applyRow sid src L r := by
  cases hu : upsertExisting sid src r L <;>
    simp [applyRow, upsertExisting, h, hu]

theorem applyRow_idem (sid : Nat) (src : String) (r : Row) :
    ∀ L, applyRow sid src (applyRow sid src L r) r = applyRow sid src L r := by
  intro L
  induction L with
  | nil =>
    have h1 : applyRow sid src [] r = [newObs sid r src] := by
      simp [applyRow, upsertExisting]
    rw [h1, @applyRow_cons_match sid src (newObs sid r src) r [] ⟨rfl, rfl⟩,
      mergeObs_newObs]
  | cons o L ih =>
    by_cases h : o.stationId = sid ∧ o.obsDate = r.date
    · rw [applyRow_cons_match L h,
        @applyRow_cons_match sid src (mergeObs o r src) r L ⟨h.1, h.2⟩, mergeObs_idem]
    · rw [applyRow_cons_nomatch L h, applyRow_cons_nomatch _ h, ih]

theorem applyRow_stable_preserved (sid : Nat) (src : String) (r r2 : Row)
    (hne : r2.date ≠ r.date) :
    ∀ L, applyRow sid src L r = L →
      applyRow sid src (applyRow sid src L r2) r = applyRow sid src L r2 := by
  intro L
  induction L with
  | nil =>
    intro h
    simp [applyRow, upsertExisting] at h
  | cons o L ih =>
    intro h
    by_cases hk : o.stationId = sid ∧ o.obsDate = r.date
    · rw [applyRow_cons_match L hk] at h
      have hmo : mergeObs o r src = o := (List.cons.injEq .. ▸ h).1
      have hk2 : ¬(o.stationId = sid ∧ o.obsDate = r2.date) := by
        intro hc
        exact hne (hc.2 ▸ hk.2.symm ▸ rfl)
      rw [applyRow_cons_nomatch L hk2, applyRow_cons_match _ hk, hmo]
    · rw [applyRow_cons_nomatch L hk] at h
      have hLr : applyRow sid src L r = L := (List.cons.injEq .. ▸ h).2
      by_cases hk2 : o.stationId = sid ∧ o.obsDate = r2.date
      · rw [applyRow_cons_match L hk2]
        have hk3 : ¬((mergeObs o r2 src).stationId = sid ∧
            (mergeObs o r2 src).obsDate = r.date) := by
          simpa [mergeObs] using hk
        rw [applyRow_cons_nomatch L hk3, hLr]
      · rw [applyRow_cons_nomatch L hk2, applyRow_cons_nomatch _ hk, ih hLr]

theorem applyRow_foldl_stable (sid : Nat) (src : String) (r : Row) :
    ∀ (rs : List Row) (L : List Obs),
      applyRow sid src L r = L → (∀ r2 ∈ rs, r2.date ≠ r.date) →
      applyRow sid src (rs.foldl (applyRow sid src) L) r =
        rs.foldl (applyRow sid src) L := by
  intro rs
  induction rs with
  | nil => intro L h _; exact h
  | cons r2 rs ih =>
    intro L h hne
    simp only [List.foldl_cons]
    exact ih (applyRow sid src L r2)
      (applyRow_stable_preserved sid src r r2 (hne r2 (List.mem_cons_self _ _)) L h)
      (fun r3 h3 => hne r3 (List.mem_cons_of_mem _ h3))

theorem foldl_applyRow_idem (sid : Nat) (src : String) :
    ∀ (rows : List Row) (L : List Obs), (rows.map Row.date).Nodup →
      rows.foldl (applyRow sid src) (rows.foldl (applyRow sid src) L) =
        rows.foldl (applyRow sid src) L := by
  intro rows
  induction rows with
  | nil => intro L _; rfl
  | cons r rs ih =>
    intro L hnd
    simp only [List.map_cons, List.nodup_cons, List.mem_map] at hnd
    have hne : ∀ r2 ∈ rs, r2.date ≠ r.date := by
      intro r2 h2 hc
      exact hnd.1 ⟨r2, h2, hc⟩
    simp only [List.foldl_cons]
    rw [applyRow_foldl_stable sid src r rs (applyRow sid src L r)
      (applyRow_idem sid src r L) hne]
    exact ih (applyRow sid src L r) hnd.2

theorem upsertExisting_append_some (sid : Nat) (src : String) (r : Row) :
    ∀ (E E2 P : List Obs), upsertExisting sid src r E = some E2 →
      upsertExisting sid src r (E ++ P) = some (E2 ++ P) := by
  intro E
  induction E with
  | nil => intro E2 P h; simp [upsertExisting] at h
  | cons o E ih =>
    intro E2 P h
    by_cases hk : o.stationId = sid ∧ o.obsDate = r.date
    · simp only [upsertExisting, if_pos hk, Option.some.injEq] at h
      simp [upsertExisting, if_pos hk, ← h]
    · simp only [upsertExisting, if_neg hk] at h
      cases hu : upsertExisting sid src r E with
      | none => rw [hu] at h; cases h
      | some E3 =>
        rw [hu] at h
        simp only [Option.some.injEq] at h
        simp [upsertExisting, if_neg hk, ih E3 P hu, ← h]

theorem upsertExisting_none_iff (sid : Nat) (src : String) (r : Row) :
    ∀ L : List Obs, upsertExisting sid src r L = none ↔
      ∀ o ∈ L, ¬(o.stationId = sid ∧ o.obsDate = r.date) := by
  intro L
  induction L with
  | nil => simp [upsertExisting]
  | cons o L ih =>
    rw [upsertExisting]
    by_cases hk : o.stationId = sid ∧ o.obsDate = r.date
    · rw [if_pos hk]
      constructor
      · intro h
        simp at h
      · intro h
        exact absurd hk (h o (List.mem_cons_self _ _))
    · rw [if_neg hk]
      cases hu : upsertExisting sid src r L with
      | none =>
        constructor
        · intro _ o2 ho2
          rcases List.mem_cons.1 ho2 with h1 | h1
          · exact h1 ▸ hk
          · exact (ih.1 hu) o2 h1
        · intro _
          rfl
      | some E3 =>
        constructor
        · intro h
          simp at h
        · intro h
          exfalso
          have h2 := ih.2 (fun o2 ho2 => h o2 (List.mem_cons_of_mem _ ho2))
          rw [h2] at hu
          cases hu

theorem processRows_concat (sid : Nat) (src : String) :
    ∀ (rows : List Row) (E P : List Obs),
      (rows.map Row.date).Nodup →
      (∀ r ∈ rows, ∀ o ∈ P, ¬(o.stationId = sid ∧ o.obsDate = r.date)) →
      (processRows sid src rows (E, P)).1 ++ (processRows sid src rows (E, P)).2 =
        rows.foldl (applyRow sid src) (E ++ P) := by
  intro rows
  induction rows with
  | nil => intro E P _ _; simp [processRows]
  | cons r rs ih =>
    intro E P hnd hP
    simp only [List.map_cons, List.nodup_cons, List.mem_map] at hnd
    simp only [List.foldl_cons]
    cases hu : upsertExisting sid src r E with
    | some E2 =>
      have h1 : applyRow sid src (E ++ P) r = E2 ++ P := by
        simp [applyRow, upsertExisting_append_some sid src r E E2 P hu]
      simp only [processRows, hu]
      rw [h1]
      exact ih E2 P hnd.2 (fun r2 h2 o ho => hP r2 (List.mem_cons_of_mem _ h2) o ho)
    | none =>
      have hnone : upsertExisting sid src r (E ++ P) = none := by
        rw [upsertExisting_none_iff]
        intro o ho
        rcases List.mem_append.1 ho with h1 | h1
        · exact (upsertExisting_none_iff sid src r E).1 hu o h1
        · exact hP r (List.mem_cons_self _ _) o h1
      have h1 : applyRow sid src (E ++ P) r = E ++ (P ++ [newObs sid r src]) := by
        simp [applyRow, hnone]
      simp only [processRows, hu]
      rw [h1]
      refine ih E (P ++ [newObs sid r src]) hnd.2 ?_
      intro r2 h2 o ho
      rcases List.mem_append.1 ho with h3 | h3
      · exact hP r2 (List.mem_cons_of_mem _ h2) o h3
      · simp only [List.mem_singleton] at h3
        subst h3
        intro hc
        exact hnd.1 ⟨r2, h2, by simpa [newObs] using hc.2.symm⟩

theorem getOrCreateStation_idem (sts : List Station) (n c : String) :
    getOrCreateStation (getOrCreateStation sts n c).1 n c =
      getOrCreateStation sts n c := by
  cases hf : sts.find? (fun s => s.code = c) with
  | some s => simp [getOrCreateStation, hf]
  | none =>
    have hf2 : ((sts ++ [Station.mk ((sts.map Station.id).foldr max 0 + 1) n c]).find?
        (fun s => s.code = c)) =
        some (Station.mk ((sts.map Station.id).foldr max 0 + 1) n c) := by
      rw [List.find?_append, hf]
      simp [List.find?]
    simp [getOrCreateStation, hf, hf2]

theorem ingestFileData_eq (db : DB) (name code file : String) (rows : List Row)
    (hnd : (rows.map Row.date).Nodup) (hne : rows.isEmpty = false) :
    ingestFileData db name code file rows =
      ⟨(getOrCreateStation db.stations name code).1,
        rows.foldl (applyRow (getOrCreateStation db.stations name code).2 file)
          db.observations⟩ := by
  have hconcat := processRows_concat (getOrCreateStation db.stations name code).2 file
    rows db.observations [] hnd (fun r2 _ o ho => absurd ho (List.not_mem_nil o))
  rw [List.append_nil] at hconcat
  simp only [ingestFileData, hne, Bool.false_eq_true, if_false]
  rw [DB.mk.injEq]
  exact ⟨rfl, hconcat⟩

end BomIngest

/-- C1 (amended): re-ingesting a file through
`BOMDataIngestor.ingest_file_data` is idempotent whenever the file has
at most one row per observation date — the station and observation
tables end in exactly the state a single ingestion produces.  (The
bulk loader `BOMDataIngester.ingest_dataframes` is not idempotent; see
the counterexample.) -/
theorem ingestFileData_idempotent :
    ∀ (db : BomIngest.DB) (name code file : String) (rows : List BomIngest.Row),
      (rows.map BomIngest.Row.date).Nodup →
      BomIngest.ingestFileData (BomIngest.ingestFileData db name code file rows)
          name code file rows =
        BomIngest.ingestFileData db name code file rows := by
  intro db name code file rows hnd
  cases hrows : rows with
  | nil => simp [BomIngest.ingestFileData]
  | cons r rs =>
    rw [← hrows]
    have hne : rows.isEmpty = false := by rw [hrows]; rfl
    have E1 := BomIngest.ingestFileData_eq db name code file rows hnd hne
    have E2 := BomIngest.ingestFileData_eq (BomIngest.ingestFileData db name code file rows)
      name code file rows hnd hne
    simp only [E1] at E2
    rw [E1, E2]
    simp only [BomIngest.getOrCreateStation_idem]
    rw [BomIngest.foldl_applyRow_idem
      (BomIngest.getOrCreateStation db.stations name code).2 file rows db.observations hnd]

/-- C1, witness: the amended idempotence theorem applied to a concrete
two-day file ingested into an empty database. -/
theorem ingestFileData_idempotent_witness :
    BomIngest.ingestFileData
        (BomIngest.ingestFileData ⟨[], []⟩ "Albury" "ALBURY" "f.csv"
          [⟨1, [some 30, none]⟩, ⟨2, [none, some 5]⟩])
        "Albury" "ALBURY" "f.csv" [⟨1, [some 30, none]⟩, ⟨2, [none, some 5]⟩] =
      BomIngest.ingestFileData ⟨[], []⟩ "Albury" "ALBURY" "f.csv"
        [⟨1, [some 30, none]⟩, ⟨2, [none, some 5]⟩] :=
  ingestFileData_idempotent ⟨[], []⟩ "Albury" "ALBURY" "f.csv"
    [⟨1, [some 30, none]⟩, ⟨2, [none, some 5]⟩] (by decide)

/-- C1, counterexample: running `BOMDataIngester.ingest_dataframes`
twice over the same one-row dataframe does not leave the table in the
state of a single run — the insert-only loader duplicates every
record. -/
theorem ingestDataframes_twice_not_idempotent :
    IngestBomData.ingestDataframes
        (IngestBomData.ingestDataframes [] [[⟨"ALBURY", 1, [some 30], "f.csv"⟩]])
        [[⟨"ALBURY", 1, [some 30], "f.csv"⟩]] ≠
      IngestBomData.ingestDataframes [] [[⟨"ALBURY", 1, [some 30], "f.csv"⟩]] := by
  decide

/-- C2: two concrete ingestion operations after which the observation
table holds two rows for one (station, date) key: re-running the
insert-only `ingest_dataframes` loader, and a single
`ingest_file_data` run over a file holding two rows for the same date
(the session has `autoflush=False`, so the second row does not see the
first pending insert, and no table-level unique constraint exists to
reject the duplicate — `models.py` only comments that one should). -/
theorem duplicate_observation_rows_persist :
    ((IngestBomData.ingestDataframes
        (IngestBomData.ingestDataframes [] [[⟨"ALBURY", 1, [some 30], "f.csv"⟩]])
        [[⟨"ALBURY", 1, [some 30], "f.csv"⟩]]).filter
      (fun w => decide (w.stationName = "ALBURY" ∧ w.date = 1))).length = 2 ∧
    ((BomIngest.ingestFileData ⟨[], []⟩ "Albury" "ALBURY" "f.csv"
        [⟨1, [some 30]⟩, ⟨1, [some 40]⟩]).observations.filter
      (fun o => decide (o.stationId = 1 ∧ o.obsDate = 1))).length = 2 := by
  decide

namespace MatchUnmatched

theorem mem_insertByScore (w x : List Char) :
    ∀ (l : List (List Char)) (c : List Char),
      c ∈ insertByScore w x l → c = x ∨ c ∈ l := by
  intro l
  induction l with
  | nil =>
    intro c h
    simp [insertByScore] at h
    exact Or.inl h
  | cons y ys ih =>
    intro c h
    by_cases hs : scoreGt w x y = true
    · simp only [insertByScore, hs, if_pos] at h
      rcases List.mem_cons.1 h with h1 | h1
      · exact Or.inl h1
      · exact Or.inr h1
    · simp only [insertByScore, hs, Bool.false_eq_true, if_false] at h
      rcases List.mem_cons.1 h with h1 | h1
      · exact Or.inr (h1 ▸ List.mem_cons_self _ _)
      · rcases ih c h1 with h2 | h2
        · exact Or.inl h2
        · exact Or.inr (List.mem_cons_of_mem _ h2)

theorem mem_sortByScore (w : List Char) :
    ∀ (l : List (List Char)) (c : List Char), c ∈ sortByScore w l → c ∈ l := by
  intro l
  induction l with
  | nil => intro c h; simp [sortByScore] at h
  | cons x xs ih =>
    intro c h
    simp only [sortByScore, List.foldr_cons] at h
    rcases mem_insertByScore w x _ c h with h1 | h1
    · exact h1 ▸ List.mem_cons_self _ _
    · exact List.mem_cons_of_mem _ (ih c h1)

theorem mem_getCloseMatches_ratio (w : List Char) (poss : List (List Char))
    (n cn cd : Nat) (c : List Char) (h : c ∈ getCloseMatches w poss n cn cd) :
    ratioGe c w cn cd = true ∧ c ∈ poss := by
  have h1 : c ∈ sortByScore w (poss.filter (fun x => ratioGe x w cn cd)) :=
    List.take_subset n _ h
  have h2 := mem_sortByScore w _ c h1
  exact ⟨(List.mem_filter.1 h2).2, (List.mem_filter.1 h2).1⟩

theorem resolveFuzzy_spec (reg : List Entry) (cn cd : Nat) (norm : String)
    (name : String) (lat lon : Rat)
    (h : resolveFuzzy reg cn cd norm = ResolveOutcome.fuzzy name lat lon) :
    ∃ e ∈ reg, e.bomName = name ∧ e.coords = some (lat, lon) ∧
      ratioGe e.key.data norm.data cn cd = true := by
  simp only [resolveFuzzy] at h
  cases hf : (getCloseMatches norm.data (reg.map (fun e => e.key.data)) 5 cn cd).find?
      (fun c =>
        match lookupReg reg ⟨c⟩ with
        | some e => e.coords.isSome
        | none => false) with
  | none => rw [hf] at h; cases h
  | some c =>
    rw [hf] at h
    dsimp only at h
    cases hl : lookupReg reg ⟨c⟩ with
    | none => rw [hl] at h; cases h
    | some e =>
      rw [hl] at h
      dsimp only at h
      cases hc : e.coords with
      | none => rw [hc] at h; cases h
      | some p =>
        cases p with
        | mk la lo =>
          rw [hc] at h
          dsimp only at h
          have hinj := ResolveOutcome.fuzzy.injEq .. ▸ h
          obtain ⟨hname, hlat, hlon⟩ := hinj
          have hmem : e ∈ reg := List.mem_of_find?_eq_some hl
          have hkey : e.key = ⟨c⟩ := by
            have := List.find?_some hl
            simpa using this
          have hcand : c ∈ getCloseMatches norm.data
              (reg.map (fun e => e.key.data)) 5 cn cd :=
            List.mem_of_find?_eq_some hf
          have hratio := (mem_getCloseMatches_ratio _ _ _ _ _ c hcand).1
          refine ⟨e, hmem, hname, by rw [hc, hlat, hlon], ?_⟩
          rw [hkey]
          exact hratio

theorem resolveLabel_fuzzy_spec (reg : List Entry) (cn cd : Nat) (label : String)
    (name : String) (lat lon : Rat)
    (h : resolveLabel reg cn cd label = ResolveOutcome.fuzzy name lat lon) :
    ∃ e ∈ reg, e.bomName = name ∧ e.coords = some (lat, lon) ∧
      ratioGe e.key.data (normalize label).data cn cd = true := by
  simp only [resolveLabel] at h
  cases hl : lookupReg reg (normalize label) with
  | none =>
    rw [hl] at h
    exact resolveFuzzy_spec reg cn cd (normalize label) name lat lon h
  | some e =>
    rw [hl] at h
    dsimp only at h
    cases hc : e.coords with
    | none =>
      rw [hc] at h
      exact resolveFuzzy_spec reg cn cd (normalize label) name lat lon h
    | some p =>
      cases p with
      | mk la lo =>
        rw [hc] at h
        dsimp only at h
        cases h

end MatchUnmatched

/-- C5, counterexample: the label "abcdefghij" has no exact registry
match and its similarity to the registry key "abcdefghi" is 18/19
(about 0.947, above both 0.9 and the script's 0.75 cutoff), yet because
that entry has no coordinates `resolve` leaves the label unresolved
instead of resolving it to any entry. -/
theorem fuzzy_above_threshold_unresolved :
    MatchUnmatched.ratioGe "abcdefghi".data
        (MatchUnmatched.normalize "abcdefghij").data 9 10 = true ∧
    MatchUnmatched.ratioGe "abcdefghi".data
        (MatchUnmatched.normalize "abcdefghij").data 3 4 = true ∧
    MatchUnmatched.resolveLabel
        [MatchUnmatched.Entry.mk "abcdefghi" "REG ENTRY" none] 3 4 "abcdefghij" =
      MatchUnmatched.ResolveOutcome.remaining := by
  decide

/-- C5 (amended): with the script's 0.75 cutoff (not 0.85), a label
whose similarity to a coordinate-bearing registry key reaches the
cutoff resolves to it (concretely, a 0.947-similar label resolves
fuzzily); a label below the cutoff (concretely, exactly 0.5-similar)
stays in the remaining list; and in general every fuzzy resolution
returns an entry of the registry that has coordinates and whose key
similarity to the normalized label reaches the cutoff — but when no
above-cutoff candidate among the top five has coordinates, the label
is left unresolved rather than resolved. -/
theorem resolve_fuzzy_characterisation :
    (MatchUnmatched.resolveLabel
        [MatchUnmatched.Entry.mk "abcdefghi" "REG ENTRY" (some (-33, 151))] 3 4
        "abcdefghij" =
      MatchUnmatched.ResolveOutcome.fuzzy "REG ENTRY" (-33) 151) ∧
    (MatchUnmatched.resolveLabel
        [MatchUnmatched.Entry.mk "abcd" "REG ENTRY" (some (-33, 151))] 3 4 "abzw" =
      MatchUnmatched.ResolveOutcome.remaining) ∧
    (MatchUnmatched.ratioNumDen "abcd".data "abzw".data = (4, 8)) ∧
    ∀ (reg : List MatchUnmatched.Entry) (cn cd : Nat) (label name : String)
      (lat lon : Rat),
      MatchUnmatched.resolveLabel reg cn cd label =
        MatchUnmatched.ResolveOutcome.fuzzy name lat lon →
      ∃ e ∈ reg, e.bomName = name ∧ e.coords = some (lat, lon) ∧
        MatchUnmatched.ratioGe e.key.data (MatchUnmatched.normalize label).data cn cd =
          true := by
  refine ⟨by decide, by decide, by decide, ?_⟩
  intro reg cn cd label name lat lon h
  exact MatchUnmatched.resolveLabel_fuzzy_spec reg cn cd label name lat lon h

/-- C5, witness: the general fuzzy-resolution guarantee applied to the
concrete one-entry registry and the 0.947-similar label. -/
theorem resolve_fuzzy_characterisation_witness :
    ∃ e ∈ [MatchUnmatched.Entry.mk "abcdefghi" "REG ENTRY" (some (-33, 151))],
      e.bomName = "REG ENTRY" ∧ e.coords = some (-33, 151) ∧
      MatchUnmatched.ratioGe e.key.data
        (MatchUnmatched.normalize "abcdefghij").data 3 4 = true :=
  resolve_fuzzy_characterisation.2.2.2
    [MatchUnmatched.Entry.mk "abcdefghi" "REG ENTRY" (some (-33, 151))] 3 4
    "abcdefghij" "REG ENTRY" (-33) 151 (by decide)

namespace BatchGeocode

theorem sleepsNonneg_tail {e : Ev} {tr : List Ev} (h : sleepsNonneg (e :: tr)) :
    sleepsNonneg tr :=
  fun d hd => h d (List.mem_cons_of_mem _ hd)

theorem leadSleepSum_nonneg :
    ∀ tr : List Ev, sleepsNonneg tr → 0 ≤ leadSleepSum tr := by
  intro tr
  induction tr with
  | nil => intro _; simp [leadSleepSum]
  | cons e rest ih =>
    intro h
    cases e with
    | req => simp [leadSleepSum]
    | sleep d =>
      have hd : 0 ≤ d := h d (List.mem_cons_self _ _)
      have := ih (sleepsNonneg_tail h)
      simp only [leadSleepSum]
      linarith

theorem reqSpaced_sleep_cons {delay d : Rat} {rest : List Ev}
    (h : reqSpaced delay (Ev.sleep d :: rest)) : reqSpaced delay rest := h

theorem reqSpaced_sleep_intro {delay d : Rat} {rest : List Ev}
    (h : reqSpaced delay rest) : reqSpaced delay (Ev.sleep d :: rest) := h

theorem gapsGo_ge (delay : Rat) :
    ∀ (tr : List Ev) (acc : Rat), sleepsNonneg tr → reqSpaced delay tr →
      (delay ≤ acc + leadSleepSum tr ∨ reqCount tr = 0) →
      ∀ g ∈ gapsGo acc tr, delay ≤ g := by
  intro tr
  induction tr with
  | nil => intro acc _ _ _ g hg; simp [gapsGo] at hg
  | cons e rest ih =>
    intro acc hs hr hcond g hg
    cases e with
    | sleep d =>
      simp only [gapsGo] at hg
      refine ih (acc + d) (sleepsNonneg_tail hs) (reqSpaced_sleep_cons hr) ?_ g hg
      rcases hcond with h1 | h1
      · left
        simp only [leadSleepSum] at h1
        linarith
      · right
        simpa [reqCount] using h1
    | req =>
      simp only [gapsGo, List.mem_cons] at hg
      rcases hg with h1 | h1
      · subst h1
        rcases hcond with h2 | h2
        · simpa [leadSleepSum] using h2
        · simp [reqCount] at h2
      · cases rest with
        | nil => simp [gapsGo] at h1
        | cons e2 r2 =>
          cases e2 with
          | req => simp [reqSpaced] at hr
          | sleep d =>
            obtain ⟨hd, hr2⟩ : delay ≤ d ∧ reqSpaced delay (Ev.sleep d :: r2) := hr
            refine ih 0 (sleepsNonneg_tail hs) hr2 ?_ g h1
            left
            have h3 : 0 ≤ leadSleepSum r2 :=
              leadSleepSum_nonneg r2 (sleepsNonneg_tail (sleepsNonneg_tail hs))
            simp only [leadSleepSum]
            linarith

theorem gaps_ge (delay : Rat) :
    ∀ tr : List Ev, sleepsNonneg tr → reqSpaced delay tr →
      ∀ g ∈ gaps tr, delay ≤ g := by
  intro tr
  induction tr with
  | nil => intro _ _ g hg; simp [gaps] at hg
  | cons e rest ih =>
    intro hs hr g hg
    cases e with
    | sleep d =>
      simp only [gaps] at hg
      exact ih (sleepsNonneg_tail hs) (reqSpaced_sleep_cons hr) g hg
    | req =>
      simp only [gaps] at hg
      cases rest with
      | nil => simp [gapsGo] at hg
      | cons e2 r2 =>
        cases e2 with
        | req => simp [reqSpaced] at hr
        | sleep d =>
          obtain ⟨hd, hr2⟩ : delay ≤ d ∧ reqSpaced delay (Ev.sleep d :: r2) := hr
          refine gapsGo_ge delay _ 0 (sleepsNonneg_tail hs) hr2 ?_ g hg
          left
          have h3 : 0 ≤ leadSleepSum r2 :=
            leadSleepSum_nonneg r2 (sleepsNonneg_tail (sleepsNonneg_tail hs))
          simp only [leadSleepSum]
          linarith

theorem gapsGo_length :
    ∀ (tr : List Ev) (acc : Rat), (gapsGo acc tr).length = reqCount tr := by
  intro tr
  induction tr with
  | nil => intro acc; rfl
  | cons e rest ih =>
    intro acc
    cases e with
    | sleep d => simp [gapsGo, reqCount, ih]
    | req => simp [gapsGo, reqCount, ih]

theorem gaps_length : ∀ tr : List Ev, (gaps tr).length = reqCount tr - 1 := by
  intro tr
  induction tr with
  | nil => rfl
  | cons e rest ih =>
    cases e with
    | sleep d => simpa [gaps, reqCount] using ih
    | req => simp [gaps, reqCount, gapsGo_length]

theorem gapsGo_sum :
    ∀ (tr : List Ev) (acc : Rat), 0 ≤ acc → sleepsNonneg tr →
      (gapsGo acc tr).sum ≤ acc + totalSleep tr := by
  intro tr
  induction tr with
  | nil => intro acc h _; simp [gapsGo, totalSleep]; linarith
  | cons e rest ih =>
    intro acc hacc hs
    cases e with
    | sleep d =>
      have hd : 0 ≤ d := hs d (List.mem_cons_self _ _)
      have := ih (acc + d) (by linarith) (sleepsNonneg_tail hs)
      simp only [gapsGo, totalSleep]
      linarith
    | req =>
      have := ih 0 le_rfl (sleepsNonneg_tail hs)
      simp only [gapsGo, totalSleep, List.sum_cons]
      linarith

theorem gaps_sum :
    ∀ tr : List Ev, sleepsNonneg tr → (gaps tr).sum ≤ totalSleep tr := by
  intro tr
  induction tr with
  | nil => intro _; simp [gaps, totalSleep]
  | cons e rest ih =>
    intro hs
    cases e with
    | sleep d =>
      have hd : 0 ≤ d := hs d (List.mem_cons_self _ _)
      have := ih (sleepsNonneg_tail hs)
      simp only [gaps, totalSleep]
      linarith
    | req =>
      have := gapsGo_sum rest 0 le_rfl (sleepsNonneg_tail hs)
      simp only [gaps, totalSleep]
      linarith

theorem mul_length_le_sum (delta : Rat) :
    ∀ l : List Rat, (∀ g ∈ l, delta ≤ g) → delta * l.length ≤ l.sum := by
  intro l
  induction l with
  | nil => intro _; simp
  | cons x xs ih =>
    intro h
    have hx : delta ≤ x := h x (List.mem_cons_self _ _)
    have := ih (fun g hg => h g (List.mem_cons_of_mem _ hg))
    simp only [List.length_cons, List.sum_cons]
    push_cast
    ring_nf
    ring_nf at this
    linarith

theorem totalSleep_nonneg :
    ∀ tr : List Ev, sleepsNonneg tr → 0 ≤ totalSleep tr := by
  intro tr
  induction tr with
  | nil => intro _; simp [totalSleep]
  | cons e rest ih =>
    intro hs
    cases e with
    | sleep d =>
      have hd : 0 ≤ d := hs d (List.mem_cons_self _ _)
      have := ih (sleepsNonneg_tail hs)
      simp only [totalSleep]
      linarith
    | req =>
      simpa [totalSleep] using ih (sleepsNonneg_tail hs)

theorem wallclock_bound (delay : Rat) (tr : List Ev)
    (hs : sleepsNonneg tr) (hg : ∀ g ∈ gaps tr, delay ≤ g) (h0 : 0 ≤ delay) :
    delay * ((reqCount tr : Rat) - 1) ≤ totalSleep tr := by
  cases hn : reqCount tr with
  | zero =>
    have hts := totalSleep_nonneg tr hs
    push_cast
    nlinarith
  | succ n =>
    have hlen : (gaps tr).length = n := by
      rw [gaps_length, hn]
      omega
    have h1 := mul_length_le_sum delay (gaps tr) hg
    rw [hlen] at h1
    have h2 := gaps_sum tr hs
    push_cast
    ring_nf
    ring_nf at h1
    linarith

end BatchGeocode

namespace BatchGeocode

theorem geocodeStationGo_sleep (delay : Rat) :
    ∀ (st : List GeoOutcome) (d : Rat),
      Ev.sleep d ∈ (geocodeStationGo delay st).1 → d = delay := by
  intro st
  induction st with
  | nil => intro d hd; simp [geocodeStationGo] at hd
  | cons o rest ih =>
    intro d hd
    cases o with
    | exc =>
      simp only [geocodeStationGo, List.mem_cons] at hd
      rcases hd with h1 | h1
      · cases h1
      · exact ih d h1
    | badStatus =>
      simp only [geocodeStationGo, List.mem_cons] at hd
      rcases hd with h1 | h1 | h1
      · cases h1
      · exact (Ev.sleep.injEq .. ▸ h1)
      · exact ih d h1
    | empty =>
      simp only [geocodeStationGo, List.mem_cons] at hd
      rcases hd with h1 | h1 | h1
      · cases h1
      · exact (Ev.sleep.injEq .. ▸ h1)
      · exact ih d h1
    | found lat lon =>
      by_cases henv : inEnvelope lat lon = true
      · simp only [geocodeStationGo, henv, if_pos, List.mem_cons] at hd
        rcases hd with h1 | h1
        · cases h1
        · simp at h1
      · simp only [geocodeStationGo, henv, Bool.false_eq_true, if_false,
          List.mem_cons] at hd
        rcases hd with h1 | h1 | h1
        · cases h1
        · exact (Ev.sleep.injEq .. ▸ h1)
        · exact ih d h1

theorem processBatchGo_sleep (delay : Rat) :
    ∀ (stations : List (List GeoOutcome)) (d : Rat),
      Ev.sleep d ∈ processBatchGo delay stations → d = delay := by
  intro stations
  induction stations with
  | nil => intro d hd; simp [processBatchGo] at hd
  | cons st rest ih =>
    intro d hd
    simp only [processBatchGo, List.mem_append] at hd
    rcases hd with (h1 | h1) | h1
    · exact geocodeStationGo_sleep delay st d h1
    · by_cases hr : rest.isEmpty = true
      · simp [hr] at h1
      · simp only [hr, Bool.false_eq_true, if_false, List.mem_singleton] at h1
        exact (Ev.sleep.injEq .. ▸ h1)
    · exact ih d h1

theorem processBatchTrace_sleepsNonneg (delay bd : Rat) (h0 : 0 ≤ delay)
    (stations : List (List GeoOutcome)) :
    sleepsNonneg (processBatchTrace delay bd stations) := by
  intro d hd
  simp only [processBatchTrace, List.mem_append] at hd
  rcases hd with h1 | h1
  · exact (processBatchGo_sleep delay stations d h1) ▸ h0
  · by_cases hbd : (0 : Rat) < bd
    · simp only [hbd, if_pos, List.mem_singleton] at h1
      exact (Ev.sleep.injEq .. ▸ h1) ▸ le_of_lt hbd
    · simp [hbd] at h1

theorem processBatchGo_sleepsNonneg (delay : Rat) (h0 : 0 ≤ delay)
    (stations : List (List GeoOutcome)) :
    sleepsNonneg (processBatchGo delay stations) :=
  fun d hd => (processBatchGo_sleep delay stations d hd) ▸ h0

theorem station_spaced (delay : Rat) :
    ∀ (st : List GeoOutcome) (tail : List Ev),
      (∀ o ∈ st, o ≠ GeoOutcome.exc) →
      reqSpaced delay tail →
      (tail = [] ∨ ∃ d tl2, tail = Ev.sleep d :: tl2 ∧ delay ≤ d) →
      reqSpaced delay ((geocodeStationGo delay st).1 ++ tail) := by
  intro st
  induction st with
  | nil =>
    intro tail _ ht _
    simpa [geocodeStationGo] using ht
  | cons o rest ih =>
    intro tail hexc ht hshape
    have hrec := ih tail (fun o2 ho => hexc o2 (List.mem_cons_of_mem _ ho)) ht hshape
    cases o with
    | exc => exact absurd rfl (hexc _ (List.mem_cons_self _ _))
    | badStatus =>
      show reqSpaced delay
        (Ev.req :: Ev.sleep delay :: ((geocodeStationGo delay rest).1 ++ tail))
      exact ⟨le_refl delay, hrec⟩
    | empty =>
      show reqSpaced delay
        (Ev.req :: Ev.sleep delay :: ((geocodeStationGo delay rest).1 ++ tail))
      exact ⟨le_refl delay, hrec⟩
    | found lat lon =>
      by_cases henv : inEnvelope lat lon = true
      · have htr : (geocodeStationGo delay (GeoOutcome.found lat lon :: rest)).1 =
            [Ev.req] := by
          simp [geocodeStationGo, henv]
        rw [htr]
        rcases hshape with h1 | ⟨d, tl2, h2, hd⟩
        · subst h1
          show reqSpaced delay [Ev.req]
          trivial
        · subst h2
          show reqSpaced delay (Ev.req :: Ev.sleep d :: tl2)
          exact ⟨hd, ht⟩
      · have henv2 : inEnvelope lat lon = false := by
          simpa using henv
        have htr : (geocodeStationGo delay (GeoOutcome.found lat lon :: rest)).1 =
            Ev.req :: Ev.sleep delay :: (geocodeStationGo delay rest).1 := by
          simp [geocodeStationGo, henv2]
        rw [htr]
        show reqSpaced delay
          (Ev.req :: Ev.sleep delay :: ((geocodeStationGo delay rest).1 ++ tail))
        exact ⟨le_refl delay, hrec⟩

theorem processBatchGo_cons (delay : Rat) (st : List GeoOutcome)
    (rest : List (List GeoOutcome)) :
    processBatchGo delay (st :: rest) =
      (geocodeStationGo delay st).1 ++
        ((if rest.isEmpty then [] else [Ev.sleep delay]) ++
          processBatchGo delay rest) := by
  rw [processBatchGo, List.append_assoc]

theorem batch_spaced (delay : Rat) :
    ∀ stations : List (List GeoOutcome),
      (∀ st ∈ stations, ∀ o ∈ st, o ≠ GeoOutcome.exc) →
      reqSpaced delay (processBatchGo delay stations) := by
  intro stations
  induction stations with
  | nil => intro _; trivial
  | cons st rest ih =>
    intro hexc
    have hst : ∀ o ∈ st, o ≠ GeoOutcome.exc :=
      hexc st (List.mem_cons_self _ _)
    have hrest := ih (fun st2 h2 => hexc st2 (List.mem_cons_of_mem _ h2))
    rw [processBatchGo_cons]
    cases hr : rest with
    | nil =>
      have h1 := station_spaced delay st [] hst trivial (Or.inl rfl)
      rw [List.append_nil] at h1
      simpa [processBatchGo] using h1
    | cons st2 rest2 =>
      rw [hr] at hrest
      simp only [List.isEmpty_cons, Bool.false_eq_true, if_false,
        List.singleton_append]
      exact station_spaced delay st
        (Ev.sleep delay :: processBatchGo delay (st2 :: rest2)) hst
        (reqSpaced_sleep_intro hrest)
        (Or.inr ⟨delay, processBatchGo delay (st2 :: rest2), rfl, le_refl delay⟩)

theorem gapsGo_append_sleep :
    ∀ (tr : List Ev) (acc d : Rat),
      gapsGo acc (tr ++ [Ev.sleep d]) = gapsGo acc tr := by
  intro tr
  induction tr with
  | nil => intro acc d; simp [gapsGo]
  | cons e rest ih =>
    intro acc d
    cases e with
    | sleep d2 => simp [gapsGo, ih]
    | req => simp [gapsGo, ih]

theorem gaps_append_sleep :
    ∀ (tr : List Ev) (d : Rat), gaps (tr ++ [Ev.sleep d]) = gaps tr := by
  intro tr
  induction tr with
  | nil => intro d; simp [gaps, gapsGo]
  | cons e rest ih =>
    intro d
    cases e with
    | sleep d2 => simp [gaps, ih]
    | req => simp [gaps, gapsGo_append_sleep]

end BatchGeocode

/-- C7, counterexample: with delay 2 and no trailing batch delay (as
the source passes for the final batch), a station whose first query
raises a timeout issues its second request with no intervening sleep:
the run makes 2 requests, the only inter-request gap is 0 < delay, and
the total explicit sleep is 0 < (2-1) x delay. -/
theorem geocode_sleep_skipped_on_exception :
    BatchGeocode.reqCount (BatchGeocode.processBatchTrace 2 0
        [[BatchGeocode.GeoOutcome.exc, BatchGeocode.GeoOutcome.found (-33) 151]]) = 2 ∧
    BatchGeocode.gaps (BatchGeocode.processBatchTrace 2 0
        [[BatchGeocode.GeoOutcome.exc, BatchGeocode.GeoOutcome.found (-33) 151]]) =
      [0] ∧
    BatchGeocode.totalSleep (BatchGeocode.processBatchTrace 2 0
        [[BatchGeocode.GeoOutcome.exc, BatchGeocode.GeoOutcome.found (-33) 151]]) = 0 ∧
    ¬ ((2 : Rat) ≤ 0) ∧
    ¬ ((2 : Rat) * ((2 : Rat) - 1) ≤ 0) := by
  refine ⟨by decide, by decide, by decide, by norm_num, by norm_num⟩

/-- C7 (amended): when no geocoding request raises an exception, every
pair of consecutive requests in a `process_batch` run is separated by
explicit sleeps totalling at least the configured delay, and a run
issuing N requests sleeps at least (N-1) x delay in total; a request
that raises, however, is followed immediately by the next query with no
sleep (see the counterexample). -/
theorem geocode_rate_limit_no_exception :
    ∀ (delay batchDelay : Rat) (stations : List (List BatchGeocode.GeoOutcome)),
      0 ≤ delay →
      (∀ st ∈ stations, ∀ o ∈ st, o ≠ BatchGeocode.GeoOutcome.exc) →
      (∀ g ∈ BatchGeocode.gaps
          (BatchGeocode.processBatchTrace delay batchDelay stations), delay ≤ g) ∧
      delay * ((BatchGeocode.reqCount
            (BatchGeocode.processBatchTrace delay batchDelay stations) : Rat) - 1) ≤
        BatchGeocode.totalSleep
          (BatchGeocode.processBatchTrace delay batchDelay stations) := by
  intro delay bd stations h0 hexc
  have hsp := BatchGeocode.batch_spaced delay stations hexc
  have hN := BatchGeocode.processBatchTrace_sleepsNonneg delay bd h0 stations
  have hgapsEq : BatchGeocode.gaps (BatchGeocode.processBatchTrace delay bd stations) =
      BatchGeocode.gaps (BatchGeocode.processBatchGo delay stations) := by
    simp only [BatchGeocode.processBatchTrace]
    by_cases hbd : (0 : Rat) < bd
    · rw [if_pos hbd, BatchGeocode.gaps_append_sleep]
    · rw [if_neg hbd, List.append_nil]
  have hg : ∀ g ∈ BatchGeocode.gaps (BatchGeocode.processBatchGo delay stations),
      delay ≤ g :=
    BatchGeocode.gaps_ge delay _
      (BatchGeocode.processBatchGo_sleepsNonneg delay h0 stations) hsp
  refine ⟨?_, ?_⟩
  · rw [hgapsEq]
    exact hg
  · exact BatchGeocode.wallclock_bound delay _ hN
      (by rw [hgapsEq]; exact hg) h0

/-- C7, witness: the amended theorem applied to a concrete
two-station batch with delay 2 in which no request raises. -/
theorem geocode_rate_limit_no_exception_witness :
    2 * ((BatchGeocode.reqCount (BatchGeocode.processBatchTrace 2 30
        [[BatchGeocode.GeoOutcome.badStatus, BatchGeocode.GeoOutcome.found (-33) 151],
          [BatchGeocode.GeoOutcome.empty]]) : Rat) - 1) ≤
      BatchGeocode.totalSleep (BatchGeocode.processBatchTrace 2 30
        [[BatchGeocode.GeoOutcome.badStatus, BatchGeocode.GeoOutcome.found (-33) 151],
          [BatchGeocode.GeoOutcome.empty]]) :=
  (geocode_rate_limit_no_exception 2 30
    [[BatchGeocode.GeoOutcome.badStatus, BatchGeocode.GeoOutcome.found (-33) 151],
      [BatchGeocode.GeoOutcome.empty]] (by norm_num) (by decide)).2
